import Mathlib

/-!
Verification of the Go rules engine in `dlgo/goboard_slow.py` (Patchouli-Go).

The Python classes `GoString`, `Board`, `Move` and `GameState` are embedded
shallowly.  Python object identity of `GoString` instances is made explicit by
an arena: a `Board` stores a map from occupied points to group identifiers
(`Nat`) together with a store assigning each identifier its current `GoString`
value; `fresh` is the next unused identifier.  Python's `deepcopy` renames all
identifiers but preserves the aliasing structure, so a value-level copy of the
arena board is an identity-faithful model of the clone.  Python's structural
`==` on `GoString`, tuples and `dict`s is modelled by decidable equality on the
corresponding Lean values (`Board.beq` compares grids extensionally).
-/

namespace PatchouliGo

/-- Modelled from the spec: `dlgo.gotypes.Point` (not under `src/`): a board
coordinate `(row, col)`, 1-indexed against the board bounds. -/
structure Point where
  row : Int
  col : Int
deriving DecidableEq, Repr

/-- Modelled from the spec: `Point.neighbors` produces exactly the 4 orthogonal
coordinates, unfiltered by board bounds. -/
def Point.neighbors (p : Point) : List Point :=
  [⟨p.row - 1, p.col⟩, ⟨p.row + 1, p.col⟩, ⟨p.row, p.col - 1⟩, ⟨p.row, p.col + 1⟩]

/-- Modelled from the spec: `dlgo.gotypes.Player` (not under `src/`): one of
black or white. -/
inductive Player where
  | black
  | white
deriving DecidableEq, Repr

/-- Modelled from the spec: `Player.other` returns the opposite side. -/
def Player.other : Player → Player
  | .black => .white
  | .white => .black

/-- Row-major comparison of points, used only to pick a canonical iteration
order for Python's unordered set iteration. -/
def pointLe (a b : Point) : Bool :=
  decide (a.row < b.row ∨ (a.row = b.row ∧ a.col ≤ b.col))

instance pointLeTotal : IsTotal Point (fun a b => pointLe a b = true) := by
  constructor
  intro a b
  simp only [pointLe, decide_eq_true_eq]
  omega

instance pointLeTrans : IsTrans Point (fun a b => pointLe a b = true) := by
  constructor
  intro a b c hab hbc
  simp only [pointLe, decide_eq_true_eq] at hab hbc ⊢
  omega

instance pointLeAntisymm : IsAntisymm Point (fun a b => pointLe a b = true) := by
  constructor
  intro a b hab hba
  cases a; cases b
  simp only [pointLe, decide_eq_true_eq] at hab hba
  simp only [Point.mk.injEq]
  rcases hab with h1 | ⟨h1, h2⟩ <;> rcases hba with h3 | ⟨h3, h4⟩ <;>
    exact ⟨by omega, by omega⟩

instance pointLeDecidable : DecidableRel (fun a b : Point => pointLe a b = true) :=
  fun _ _ => instDecidableEqBool _ _

/-- Canonical (row-major sorted) enumeration of a finite set of points;
kernel-computable stand-in for iterating a Python set. -/
def sortPoints (s : Finset Point) : List Point :=
  Quot.liftOn s.val (fun l => l.insertionSort (fun a b => pointLe a b = true))
    (fun l1 l2 h =>
      List.eq_of_perm_of_sorted
        ((List.perm_insertionSort _ l1).trans
          ((Quotient.exact (Quot.sound h)).trans (List.perm_insertionSort _ l2).symm))
        (List.sorted_insertionSort _ l1) (List.sorted_insertionSort _ l2))

theorem mem_sortPoints (s : Finset Point) (p : Point) :
    p ∈ sortPoints s ↔ p ∈ s := by
  rcases s with ⟨m, nd⟩
  refine Quot.inductionOn m ?_ nd
  intro l nd
  show p ∈ List.insertionSort _ l ↔ _
  rw [(List.perm_insertionSort _ l).mem_iff]
  rfl

theorem nodup_sortPoints (s : Finset Point) : (sortPoints s).Nodup := by
  rcases s with ⟨m, nd⟩
  refine Quot.inductionOn m ?_ nd
  intro l nd
  exact (List.perm_insertionSort _ l).nodup_iff.mpr nd

/-- Embeds `GoString.__init__`: a group has a color, a stone set and a liberty
set (Python `set`s become `Finset`s). -/
structure GoString where
  color : Player
  stones : Finset Point
  liberties : Finset Point
deriving DecidableEq

/-- Embeds `GoString.remove_liberty` (Python `set.remove`; the Python version
raises on an absent element, which never happens on boards satisfying the
liberty invariant — `Finset.erase` is the total version). -/
def GoString.remove_liberty (g : GoString) (p : Point) : GoString :=
  { g with liberties := g.liberties.erase p }

/-- Embeds `GoString.add_liberty` (Python `set.add`). -/
def GoString.add_liberty (g : GoString) (p : Point) : GoString :=
  { g with liberties := insert p g.liberties }

/-- Embeds `GoString.merged_with`: union the stones; liberties are the union of
both liberty sets minus the combined stones.  The Python `assert` on equal
colors is a precondition carried as a hypothesis by the theorems. -/
def GoString.merged_with (g go_string : GoString) : GoString :=
  let combined_stones := g.stones ∪ go_string.stones
  ⟨g.color, combined_stones, (g.liberties ∪ go_string.liberties) \ combined_stones⟩

/-- Embeds the `GoString.num_liberties` property. -/
def GoString.num_liberties (g : GoString) : Nat := g.liberties.card

@[simp] theorem GoString.merged_with_color (g h : GoString) :
    (g.merged_with h).color = g.color := rfl

@[simp] theorem GoString.merged_with_stones (g h : GoString) :
    (g.merged_with h).stones = g.stones ∪ h.stones := rfl

@[simp] theorem GoString.merged_with_liberties (g h : GoString) :
    (g.merged_with h).liberties = (g.liberties ∪ h.liberties) \ (g.stones ∪ h.stones) := rfl

/-- Union of the stone sets of a list of groups. -/
def stonesUnion (l : List GoString) : Finset Point :=
  l.foldr (fun g acc => g.stones ∪ acc) ∅

/-- Union of the liberty sets of a list of groups. -/
def libertiesUnion (l : List GoString) : Finset Point :=
  l.foldr (fun g acc => g.liberties ∪ acc) ∅

@[simp] theorem stonesUnion_nil : stonesUnion [] = ∅ := rfl
@[simp] theorem stonesUnion_cons (g : GoString) (l : List GoString) :
    stonesUnion (g :: l) = g.stones ∪ stonesUnion l := rfl
@[simp] theorem libertiesUnion_nil : libertiesUnion [] = ∅ := rfl
@[simp] theorem libertiesUnion_cons (g : GoString) (l : List GoString) :
    libertiesUnion (g :: l) = g.liberties ∪ libertiesUnion l := rfl

/-- Folding `merged_with` over a nonempty list computes the componentwise
unions of the seed and all list elements. -/
theorem foldl_merged_with_eq (h : GoString) (t : List GoString) (g : GoString) :
    (h :: t).foldl GoString.merged_with g =
      ⟨g.color, g.stones ∪ stonesUnion (h :: t),
        (g.liberties ∪ libertiesUnion (h :: t)) \ (g.stones ∪ stonesUnion (h :: t))⟩ := by
  induction t generalizing g h with
  | nil => simp [GoString.merged_with]
  | cons h2 t2 ih =>
    show ((h2 :: t2).foldl GoString.merged_with (g.merged_with h)) = _
    rw [ih]
    simp only [GoString.merged_with, GoString.mk.injEq, stonesUnion_cons, libertiesUnion_cons]
    refine ⟨trivial, ?_, ?_⟩
    · ext p; simp only [Finset.mem_union]; tauto
    · ext p
      simp only [Finset.mem_union, Finset.mem_sdiff]
      tauto

theorem stonesUnion_perm {l1 l2 : List GoString} (h : l1.Perm l2) :
    stonesUnion l1 = stonesUnion l2 := by
  induction h with
  | nil => rfl
  | cons x _ ih => simp [ih]
  | swap x y l =>
    simp only [stonesUnion_cons]
    rw [← Finset.union_assoc, ← Finset.union_assoc, Finset.union_comm y.stones x.stones]
  | trans _ _ ih1 ih2 => exact ih1.trans ih2

theorem libertiesUnion_perm {l1 l2 : List GoString} (h : l1.Perm l2) :
    libertiesUnion l1 = libertiesUnion l2 := by
  induction h with
  | nil => rfl
  | cons x _ ih => simp [ih]
  | swap x y l =>
    simp only [libertiesUnion_cons]
    rw [← Finset.union_assoc, ← Finset.union_assoc, Finset.union_comm y.liberties x.liberties]
  | trans _ _ ih1 ih2 => exact ih1.trans ih2

/-- C4: for same-colored groups, `merged_with` returns a new group with the
first group's color, the union of the stone sets, and the union of the liberty
sets minus the combined stones; in particular a liberty of one group occupied
by a stone of the other is dropped. -/
theorem merged_with_spec (g1 g2 : GoString) (h : g2.color = g1.color) :
    (g1.merged_with g2).color = g1.color ∧
    (g1.merged_with g2).stones = g1.stones ∪ g2.stones ∧
    (g1.merged_with g2).liberties =
      (g1.liberties ∪ g2.liberties) \ (g1.stones ∪ g2.stones) ∧
    (∀ p, p ∈ g2.stones → p ∉ (g1.merged_with g2).liberties) := by
  refine ⟨rfl, rfl, rfl, ?_⟩
  intro p hp
  simp [GoString.merged_with, hp]

/-- Witness for C4 at concrete groups. -/
theorem merged_with_spec_witness :
    ((GoString.mk Player.black {⟨1, 1⟩} {⟨1, 2⟩, ⟨2, 1⟩}).merged_with
        (GoString.mk Player.black {⟨1, 2⟩} {⟨1, 1⟩, ⟨1, 3⟩, ⟨2, 2⟩})).stones =
      {⟨1, 1⟩, ⟨1, 2⟩} ∧
    ((GoString.mk Player.black {⟨1, 1⟩} {⟨1, 2⟩, ⟨2, 1⟩}).merged_with
        (GoString.mk Player.black {⟨1, 2⟩} {⟨1, 1⟩, ⟨1, 3⟩, ⟨2, 2⟩})).liberties =
      {⟨2, 1⟩, ⟨1, 3⟩, ⟨2, 2⟩} := by
  have h := merged_with_spec
    (GoString.mk Player.black {⟨1, 1⟩} {⟨1, 2⟩, ⟨2, 1⟩})
    (GoString.mk Player.black {⟨1, 2⟩} {⟨1, 1⟩, ⟨1, 3⟩, ⟨2, 2⟩}) rfl
  exact ⟨h.2.1.trans (by decide), h.2.2.1.trans (by decide)⟩

/-- C5: merging a finite collection of same-colored groups yields the same
structural result regardless of order: `merged_with` is commutative (given the
color precondition) and associative, and folding it over any permutation of a
list of groups gives the same group. -/
theorem merged_with_order_invariant :
    (∀ g1 g2 : GoString, g2.color = g1.color →
      g1.merged_with g2 = g2.merged_with g1) ∧
    (∀ g1 g2 g3 : GoString,
      (g1.merged_with g2).merged_with g3 = g1.merged_with (g2.merged_with g3)) ∧
    (∀ (g : GoString) (l1 l2 : List GoString), l1.Perm l2 →
      l1.foldl GoString.merged_with g = l2.foldl GoString.merged_with g) := by
  refine ⟨?_, ?_, ?_⟩
  · intro g1 g2 h
    simp only [GoString.merged_with, GoString.mk.injEq]
    refine ⟨h.symm, Finset.union_comm _ _, ?_⟩
    rw [Finset.union_comm g1.liberties, Finset.union_comm g1.stones]
  · intro g1 g2 g3
    simp only [GoString.merged_with, GoString.mk.injEq]
    refine ⟨trivial, Finset.union_assoc _ _ _, ?_⟩
    ext p
    simp only [Finset.mem_sdiff, Finset.mem_union]
    tauto
  · intro g l1 l2 hp
    cases l1 with
    | nil => rw [hp.nil_eq]
    | cons h1 t1 =>
      cases l2 with
      | nil => exact absurd hp.symm.nil_eq (by simp)
      | cons h2 t2 =>
        rw [foldl_merged_with_eq, foldl_merged_with_eq,
          stonesUnion_perm hp, libertiesUnion_perm hp]

/-- A finite map from points to group identifiers, as an association list with
shadowing insert: the first entry for a key wins. -/
def findKey : List (Point × Nat) → Point → Option Nat
  | [], _ => none
  | (q, i) :: t, p => if p = q then some i else findKey t p

/-- Removes every entry for a key (Python `del grid[point]`). -/
def eraseKey : List (Point × Nat) → Point → List (Point × Nat)
  | [], _ => []
  | (q, i) :: t, p => if q = p then eraseKey t p else (q, i) :: eraseKey t p

@[simp] theorem findKey_nil (p : Point) : findKey [] p = none := rfl

@[simp] theorem findKey_cons (q : Point) (i : Nat) (t : List (Point × Nat)) (p : Point) :
    findKey ((q, i) :: t) p = if p = q then some i else findKey t p := rfl

theorem findKey_append (l1 l2 : List (Point × Nat)) (p : Point) :
    findKey (l1 ++ l2) p =
      match findKey l1 p with
      | some i => some i
      | none => findKey l2 p := by
  induction l1 with
  | nil => rfl
  | cons e t ih =>
    cases e with
    | mk q i =>
      by_cases h : p = q <;> simp [h, ih]

theorem findKey_eraseKey (l : List (Point × Nat)) (p q : Point) :
    findKey (eraseKey l p) q = if q = p then none else findKey l q := by
  induction l with
  | nil => simp [eraseKey]
  | cons e t ih =>
    cases e with
    | mk r i =>
      by_cases hr : r = p
      · subst hr
        simp only [eraseKey, if_pos rfl, findKey_cons]
        by_cases hq : q = r
        · subst hq; simp [ih]
        · simp [hq, ih]
      · simp only [eraseKey, if_neg hr, findKey_cons]
        by_cases hq : q = r
        · subst hq
          simp [hr]
        · simp [hq, ih]

theorem findKey_writeList (ps : List Point) (i : Nat) (l : List (Point × Nat)) (q : Point) :
    findKey (ps.map (fun p => (p, i)) ++ l) q =
      if q ∈ ps then some i else findKey l q := by
  induction ps with
  | nil => simp
  | cons p t ih =>
    by_cases h : q = p
    · simp [h]
    · simp only [List.map_cons, List.cons_append, findKey_cons, h, if_false, ih,
        List.mem_cons]
      simp [h]

/-- Pointwise update of the identifier store. -/
def updateStore (f : Nat → GoString) (i : Nat) (g : GoString) : Nat → GoString :=
  fun j => if j = i then g else f j

@[simp] theorem updateStore_same (f : Nat → GoString) (i : Nat) (g : GoString) :
    updateStore f i g i = g := by simp [updateStore]

theorem updateStore_other (f : Nat → GoString) (i : Nat) (g : GoString) (j : Nat)
    (h : j ≠ i) : updateStore f i g j = f j := by simp [updateStore, h]

/-- Embeds `Board.__init__` plus the identity arena: `grid` maps occupied
points to group identifiers, `store` gives each identifier's current
`GoString` value, and `fresh` is the next unused identifier. -/
structure Board where
  num_rows : Int
  num_cols : Int
  grid : List (Point × Nat)
  store : Nat → GoString
  fresh : Nat

/-- Embeds `Board.is_on_grid`. -/
def Board.is_on_grid (b : Board) (p : Point) : Bool :=
  decide (1 ≤ p.row ∧ p.row ≤ b.num_rows ∧ 1 ≤ p.col ∧ p.col ≤ b.num_cols)

/-- Embeds `Board.get_go_string` (the group value covering a point, if any). -/
def Board.get_go_string (b : Board) (p : Point) : Option GoString :=
  (findKey b.grid p).map b.store

/-- Embeds `Board.get` (the color of the stone on a point, if any). -/
def Board.get (b : Board) (p : Point) : Option Player :=
  (b.get_go_string p).map GoString.color

/-- Replaces the group value stored at one identifier. -/
def Board.setStore (b : Board) (i : Nat) (g : GoString) : Board :=
  { b with store := updateStore b.store i g }

/-- The neighbor scan inside `Board._remove_string`: if the neighbor is
unmapped, skip; if it is mapped to the removed group itself
(`neighbor_string is not string`, an identity test), skip; otherwise the
neighbor's group gains the vacated point as a liberty. -/
def Board.addLibStep (sid : Nat) (p : Point) (acc : Board) (n : Point) : Board :=
  match findKey acc.grid n with
  | none => acc
  | some j => if j = sid then acc else acc.setStore j ((acc.store j).add_liberty p)

/-- One step of `Board._remove_string`: restore liberties to the groups of the
4 neighbors of a vacated point, then delete the point's grid entry. -/
def Board.removePoint (b : Board) (sid : Nat) (p : Point) : Board :=
  let b1 := p.neighbors.foldl (Board.addLibStep sid p) b
  { b1 with grid := eraseKey b1.grid p }

/-- Iterates `Board.removePoint` over a list of stones. -/
def Board.removeList (b : Board) (sid : Nat) : List Point → Board
  | [] => b
  | p :: t => (b.removePoint sid p).removeList sid t

/-- Embeds `Board._remove_string`: process every stone of the group being
captured.  Python iterates an unordered set; the canonical row-major order is
used (the claims' theorems characterize the result extensionally). -/
def Board.remove_string (b : Board) (sid : Nat) : Board :=
  b.removeList sid (sortPoints (b.store sid).stones)

/-- One neighbor of the scanning loop of `Board.place_stone`: collect the
adjacent same-color groups, the adjacent opposite-color groups, and the empty
neighbors.  Python's `not in` membership test compares `GoString` instances
with structural `__eq__`, so deduplication is by structural equality of the
stored group values. -/
def Board.collectStep (b : Board) (player : Player)
    (acc : List Nat × List Nat × List Point) (n : Point) :
    List Nat × List Nat × List Point :=
  if b.is_on_grid n then
    match findKey b.grid n with
    | none => (acc.1, acc.2.1, acc.2.2 ++ [n])
    | some i =>
      if (b.store i).color = player then
        if acc.1.any (fun j => b.store j == b.store i) then acc
        else (acc.1 ++ [i], acc.2.1, acc.2.2)
      else
        if acc.2.1.any (fun j => b.store j == b.store i) then acc
        else (acc.1, acc.2.1 ++ [i], acc.2.2)
  else acc

/-- Embeds the neighbor-scanning loop of `Board.place_stone` (see
`Board.collectStep` for one neighbor). -/
def Board.collect (b : Board) (player : Player) (point : Point) :
    List Nat × List Nat × List Point :=
  point.neighbors.foldl (b.collectStep player) ([], [], [])

/-- The merged group created by `Board.place_stone`: the singleton group for
the placed stone merged with every collected adjacent friendly group. -/
def Board.newString (b : Board) (player : Player) (point : Point) : GoString :=
  (b.collect player point).1.foldl (fun g j => g.merged_with (b.store j))
    ⟨player, {point}, (b.collect player point).2.2.toFinset⟩

/-- The grid/store write phase of `Board.place_stone`: allocate a fresh
identifier for the merged group and map every one of its stones to it. -/
def Board.placeWrite (b : Board) (player : Player) (point : Point) : Board :=
  { b with
    store := updateStore b.store b.fresh (b.newString player point),
    grid := (sortPoints (b.newString player point).stones).map (fun q => (q, b.fresh))
      ++ b.grid,
    fresh := b.fresh + 1 }

/-- The liberty-reduction step of `Board.place_stone`
(`other_color_string.remove_liberty(point)`). -/
def Board.reduceStep (point : Point) (bb : Board) (j : Nat) : Board :=
  bb.setStore j ((bb.store j).remove_liberty point)

/-- The liberty-reduction fold of `Board.place_stone` applied after the write
phase: every collected adjacent enemy group loses the placed point. -/
def Board.placeReduced (b : Board) (player : Player) (point : Point) : Board :=
  (b.collect player point).2.1.foldl (Board.reduceStep point) (b.placeWrite player point)

/-- The capture step of `Board.place_stone`: a collected enemy group now at
zero liberties is removed.  The Python `assert`s of `place_stone` (point
on-grid and unoccupied) are preconditions carried as hypotheses by the
theorems. -/
def Board.captureStep (bb : Board) (j : Nat) : Board :=
  if (bb.store j).num_liberties = 0 then bb.remove_string j else bb

/-- Embeds `Board.place_stone`: scan the neighbors, build and write the merged
group, remove the placed point from each collected enemy group's liberties,
then capture every collected enemy group now at zero liberties. -/
def Board.place_stone (b : Board) (player : Player) (point : Point) : Board :=
  (b.collect player point).2.1.foldl Board.captureStep (b.placeReduced player point)

/-- Python `dict` values at a point: the group value it is mapped to. -/
def Board.valueAt (b : Board) (p : Point) : Option GoString :=
  (findKey b.grid p).map b.store

/-- Embeds `Board.__eq__`: same dimensions and structurally equal grids
(`dict.__eq__` compares key sets and, per key, values via `GoString.__eq__`).
Comparison is extensional over the keys of both grids. -/
def Board.beq (b1 b2 : Board) : Bool :=
  b1.num_rows == b2.num_rows && b1.num_cols == b2.num_cols &&
    ((b1.grid.map Prod.fst ++ b2.grid.map Prod.fst).all
      (fun p => b1.valueAt p == b2.valueAt p))

/-- Embeds `Move.__init__`'s stored state: an optional point plus the pass and
resign flags (`is_play` is derived as `point is not None`). -/
structure Move where
  point : Option Point
  is_pass : Bool
  is_resign : Bool
deriving DecidableEq, Repr

/-- Embeds the derived `Move.is_play` attribute. -/
def Move.is_play (m : Move) : Bool := m.point.isSome

/-- Embeds `Move.__init__` with its contract check: Python asserts
`(point is not None) ^ is_pass ^ is_resign`, a chained XOR, and construction
fails (assertion error) exactly when that parity check is false. -/
def Move.init (point : Option Point) (is_pass is_resign : Bool) : Option Move :=
  if Bool.xor (Bool.xor point.isSome is_pass) is_resign then
    some ⟨point, is_pass, is_resign⟩
  else none

/-- Embeds the `Move.play` classmethod. -/
def Move.play (p : Point) : Move := ⟨some p, false, false⟩

/-- Embeds the `Move.pass_turn` classmethod. -/
def Move.pass_turn : Move := ⟨none, true, false⟩

/-- Embeds the `Move.resign` classmethod. -/
def Move.resign : Move := ⟨none, false, true⟩

/-- Embeds `GameState.__init__`: a board snapshot, the side to move, an
optional parent state and the optional move that produced this state.  The
optional parent is split into two constructors (`root` for `previous = None`,
`child` otherwise) so that walking the parent chain is structural recursion. -/
inductive GameState where
  | root (board : Board) (next_player : Player) (last_move : Option Move)
  | child (board : Board) (next_player : Player) (previous : GameState)
      (last_move : Option Move)

/-- The four-argument `GameState` constructor, as in Python. -/
def GameState.init (board : Board) (next_player : Player)
    (previous : Option GameState) (move : Option Move) : GameState :=
  match previous with
  | none => .root board next_player move
  | some ps => .child board next_player ps move

/-- Field accessor for the board. -/
def GameState.board : GameState → Board
  | .root b _ _ => b
  | .child b _ _ _ => b

/-- Field accessor for the side to move. -/
def GameState.next_player : GameState → Player
  | .root _ np _ => np
  | .child _ np _ _ => np

/-- Field accessor for the parent state. -/
def GameState.previous_state : GameState → Option GameState
  | .root _ _ _ => none
  | .child _ _ prev _ => some prev

/-- Field accessor for the move that produced this state. -/
def GameState.last_move : GameState → Option Move
  | .root _ _ m => m
  | .child _ _ _ m => m

/-- Embeds `GameState.apply_move`: for a Play move, place the stone on a clone
of the board (cloning is the identity in this value-level embedding); for Pass
or Resign reuse the board; the child records the flipped player, the receiver
as parent, and the move. -/
def GameState.apply_move (s : GameState) (move : Move) : GameState :=
  match move.point with
  | some p =>
      .init (s.board.place_stone s.next_player p) s.next_player.other (some s) (some move)
  | none => .init s.board s.next_player.other (some s) (some move)

/-- Embeds `GameState.new_game` for a square board of the given size: empty
grid, black to move, no parent, no move. -/
def GameState.new_game (board_size : Int) : GameState :=
  .init ⟨board_size, board_size, [], fun _ => ⟨Player.black, ∅, ∅⟩, 0⟩ Player.black none none

/-- Embeds `GameState.is_move_self_capture`: non-Play moves are never
self-capture; otherwise simulate the placement on a clone and test whether the
group now covering the played point has zero liberties.  The `none` branch of
the inner match is unreachable on boards satisfying the grid invariant
(`place_stone` always maps the played point). -/
def GameState.is_move_self_capture (s : GameState) (player : Player) (move : Move) : Bool :=
  match move.point with
  | none => false
  | some p =>
    match (s.board.place_stone player p).get_go_string p with
    | some new_string => new_string.num_liberties == 0
    | none => false

/-- Embeds the `GameState.situation` property: the pair
(next player, board). -/
def GameState.situation (s : GameState) : Player × Board :=
  (s.next_player, s.board)

/-- Structural equality of situations, as Python compares the
`(next_player, board)` tuples with `==`. -/
def situationEq (x y : Player × Board) : Bool :=
  x.1 == y.1 && Board.beq x.2 y.2

/-- Embeds the `while past_state is not None` walk of
`GameState.does_move_violate_ko`: test this state's situation and then each
ancestor's against the candidate situation, following the parent chain. -/
def GameState.chainHasSituation (sit : Player × Board) : GameState → Bool
  | .root b np _ => situationEq (np, b) sit
  | .child b np prev _ => situationEq (np, b) sit || prev.chainHasSituation sit

/-- Embeds `GameState.does_move_violate_ko`: non-Play moves never violate ko;
otherwise simulate the placement on a clone and search the parent chain,
starting from `previous_state`, for a structurally equal situation. -/
def GameState.does_move_violate_ko (s : GameState) (player : Player) (move : Move) : Bool :=
  match move.point with
  | none => false
  | some p =>
    match s.previous_state with
    | none => false
    | some past_state =>
      past_state.chainHasSituation (player.other, s.board.place_stone player p)

/-- Embeds `GameState.is_over`.  The `none` parent branch below the resign
test is unreachable for states built by `new_game`/`apply_move` (Python
dereferences `previous_state.last_move` there). -/
def GameState.is_over (s : GameState) : Bool :=
  match s.last_move with
  | none => false
  | some m =>
    if m.is_resign then true
    else
      match s.previous_state with
      | none => false
      | some ps =>
        match ps.last_move with
        | none => false
        | some second_last_move => m.is_pass && second_last_move.is_pass

/-- Embeds `GameState.is_valid_move`: false once the game is over; Pass and
Resign are otherwise always legal; a Play is legal iff the target point is
empty, not self-capture and not a ko violation.  The `none` point branch
mirrors Python, where `board.get(None)` is `None` and the self-capture and ko
tests are vacuously false for a non-play move. -/
def GameState.is_valid_move (s : GameState) (move : Move) : Bool :=
  if s.is_over then false
  else if move.is_pass || move.is_resign then true
  else
    match move.point with
    | none => true
    | some p =>
      (s.board.get p == none) &&
        !(s.is_move_self_capture s.next_player move) &&
        !(s.does_move_violate_ko s.next_player move)

/-- Embeds `GameState.legal_moves`: scan all board points in row-major order,
keep the valid Play moves, then unconditionally append Pass and Resign. -/
def GameState.legal_moves (s : GameState) : List Move :=
  let pts := ((List.range s.board.num_rows.toNat).map (fun r =>
    (List.range s.board.num_cols.toNat).map (fun c =>
      Point.mk ((r : Int) + 1) ((c : Int) + 1)))).flatten
  ((pts.map Move.play).filter (fun m => s.is_valid_move m)) ++ [Move.pass_turn, Move.resign]

/-- The strict ancestors of a state: the parent chain walked to the root. -/
def GameState.ancestors : GameState → List GameState
  | .root _ _ _ => []
  | .child _ _ prev _ => prev :: prev.ancestors

/-- C6 counterexample: constructing a `Move` with all three of
{point, is_pass, is_resign} set passes the chained-XOR assert and succeeds,
contradicting the claim that any construction with more than one tag set
fails fatally. -/
theorem move_init_three_tags_succeeds :
    Move.init (some ⟨1, 1⟩) true true = some ⟨some ⟨1, 1⟩, true, true⟩ := by decide

/-- C6 (amended): construction succeeds exactly when an odd number of the
three tags is set — with exactly one tag set it succeeds and sets the
corresponding discriminant, with zero or exactly two tags set it fails
fatally, and with all three set it (degenerately) succeeds as well. -/
theorem move_init_spec :
    (∀ (p : Option Point) (ip ir : Bool),
      (Move.init p ip ir).isSome = Bool.xor (Bool.xor p.isSome ip) ir) ∧
    (∀ pt, Move.init (some pt) false false = some (Move.play pt)) ∧
    Move.init none true false = some Move.pass_turn ∧
    Move.init none false true = some Move.resign ∧
    Move.init none false false = none ∧
    (∀ pt, Move.init (some pt) true false = none) ∧
    (∀ pt, Move.init (some pt) false true = none) ∧
    Move.init none true true = none := by
  refine ⟨?_, ?_, rfl, rfl, rfl, ?_, ?_, rfl⟩
  · intro p ip ir
    cases p <;> cases ip <;> cases ir <;> rfl
  · intro pt; rfl
  · intro pt; rfl
  · intro pt; rfl

/-- Witness for C5 at concrete groups. -/
theorem merged_with_order_invariant_witness :
    (GoString.mk Player.white {⟨1, 1⟩} {⟨1, 2⟩}).merged_with
        (GoString.mk Player.white {⟨2, 2⟩} {⟨1, 2⟩, ⟨2, 1⟩}) =
      (GoString.mk Player.white {⟨2, 2⟩} {⟨1, 2⟩, ⟨2, 1⟩}).merged_with
        (GoString.mk Player.white {⟨1, 1⟩} {⟨1, 2⟩}) :=
  merged_with_order_invariant.1
    (GoString.mk Player.white {⟨1, 1⟩} {⟨1, 2⟩})
    (GoString.mk Player.white {⟨2, 2⟩} {⟨1, 2⟩, ⟨2, 1⟩}) rfl

theorem findKey_mem {l : List (Point × Nat)} {q : Point} {i : Nat}
    (h : findKey l q = some i) : (q, i) ∈ l := by
  induction l with
  | nil => simp at h
  | cons e t ih =>
    cases e with
    | mk r j =>
      by_cases hq : q = r
      · subst hq
        simp only [findKey_cons, eq_self_iff_true, if_true, Option.some.injEq] at h
        subst h
        exact List.mem_cons_self _ _
      · simp only [findKey_cons, if_neg hq] at h
        exact List.mem_cons_of_mem _ (ih h)

theorem GoString.add_liberty_idem (g : GoString) (p : Point) :
    (g.add_liberty p).add_liberty p = g.add_liberty p := by
  simp [GoString.add_liberty]

@[simp] theorem GoString.add_liberty_stones (g : GoString) (p : Point) :
    (g.add_liberty p).stones = g.stones := rfl

@[simp] theorem GoString.add_liberty_color (g : GoString) (p : Point) :
    (g.add_liberty p).color = g.color := rfl

@[simp] theorem GoString.remove_liberty_stones (g : GoString) (p : Point) :
    (g.remove_liberty p).stones = g.stones := rfl

@[simp] theorem GoString.remove_liberty_color (g : GoString) (p : Point) :
    (g.remove_liberty p).color = g.color := rfl

theorem addLibStep_frame (sid : Nat) (p : Point) (bb : Board) (n : Point) :
    (Board.addLibStep sid p bb n).grid = bb.grid ∧
    (Board.addLibStep sid p bb n).fresh = bb.fresh ∧
    (Board.addLibStep sid p bb n).num_rows = bb.num_rows ∧
    (Board.addLibStep sid p bb n).num_cols = bb.num_cols := by
  cases hf : findKey bb.grid n with
  | none => simp [Board.addLibStep, hf]
  | some j =>
    simp only [Board.addLibStep, hf]
    by_cases hj : j = sid
    · rw [if_pos hj]
      exact ⟨rfl, rfl, rfl, rfl⟩
    · rw [if_neg hj]
      exact ⟨rfl, rfl, rfl, rfl⟩

theorem addLibStep_store_sid (sid : Nat) (p : Point) (bb : Board) (n : Point) :
    (Board.addLibStep sid p bb n).store sid = bb.store sid := by
  cases hf : findKey bb.grid n with
  | none => simp only [Board.addLibStep, hf]
  | some j =>
    simp only [Board.addLibStep, hf]
    by_cases hj : j = sid
    · rw [if_pos hj]
    · rw [if_neg hj]
      exact updateStore_other _ _ _ _ (fun h => hj h.symm)

theorem addLibStep_store_of_ne (sid : Nat) (p : Point) (bb : Board) (n : Point)
    {j : Nat} (hj : j ≠ sid) :
    (Board.addLibStep sid p bb n).store j =
      if findKey bb.grid n = some j then (bb.store j).add_liberty p
      else bb.store j := by
  cases hf : findKey bb.grid n with
  | none => simp [Board.addLibStep, hf]
  | some j0 =>
    simp only [Board.addLibStep, hf]
    by_cases hj0 : j0 = sid
    · subst hj0
      rw [if_pos rfl, if_neg (fun h => hj (Option.some.inj h).symm)]
    · rw [if_neg hj0]
      by_cases hjj : j = j0
      · subst hjj
        rw [if_pos rfl]
        exact updateStore_same _ _ _
      · rw [if_neg (fun h => hjj (Option.some.inj h).symm)]
        exact updateStore_other _ _ _ _ hjj

theorem foldl_addLibStep_frame (sid : Nat) (p : Point) :
    ∀ (ns : List Point) (bb : Board),
    ((ns.foldl (Board.addLibStep sid p) bb).grid = bb.grid ∧
     (ns.foldl (Board.addLibStep sid p) bb).fresh = bb.fresh ∧
     (ns.foldl (Board.addLibStep sid p) bb).num_rows = bb.num_rows ∧
     (ns.foldl (Board.addLibStep sid p) bb).num_cols = bb.num_cols)
  | [], bb => ⟨rfl, rfl, rfl, rfl⟩
  | n :: t, bb => by
    have hstep := addLibStep_frame sid p bb n
    have ih := foldl_addLibStep_frame sid p t (Board.addLibStep sid p bb n)
    simp only [List.foldl_cons]
    exact ⟨ih.1.trans hstep.1, ih.2.1.trans hstep.2.1,
      ih.2.2.1.trans hstep.2.2.1, ih.2.2.2.trans hstep.2.2.2⟩

theorem foldl_addLibStep_store_sid (sid : Nat) (p : Point) :
    ∀ (ns : List Point) (bb : Board),
    (ns.foldl (Board.addLibStep sid p) bb).store sid = bb.store sid
  | [], bb => rfl
  | n :: t, bb => by
    simp only [List.foldl_cons]
    exact (foldl_addLibStep_store_sid sid p t _).trans (addLibStep_store_sid sid p bb n)

theorem foldl_addLibStep_store_of_ne (sid : Nat) (p : Point) {j : Nat} (hj : j ≠ sid) :
    ∀ (ns : List Point) (bb : Board),
    (ns.foldl (Board.addLibStep sid p) bb).store j =
      if ∃ n ∈ ns, findKey bb.grid n = some j then (bb.store j).add_liberty p
      else bb.store j
  | [], bb => by simp
  | n :: t, bb => by
    have ih := foldl_addLibStep_store_of_ne sid p hj t (Board.addLibStep sid p bb n)
    simp only [List.foldl_cons]
    rw [ih, (addLibStep_frame sid p bb n).1, addLibStep_store_of_ne sid p bb n hj]
    simp only [List.mem_cons, exists_eq_or_imp]
    by_cases hf : findKey bb.grid n = some j
    · rw [if_pos hf, if_pos (Or.inl hf)]
      by_cases ht : ∃ n' ∈ t, findKey bb.grid n' = some j
      · rw [if_pos ht, GoString.add_liberty_idem]
      · rw [if_neg ht]
    · rw [if_neg hf]
      by_cases ht : ∃ n' ∈ t, findKey bb.grid n' = some j
      · rw [if_pos ht, if_pos (Or.inr ht)]
      · rw [if_neg ht, if_neg (fun h => h.elim hf ht)]

theorem removePoint_grid (bb : Board) (sid : Nat) (p q : Point) :
    findKey (bb.removePoint sid p).grid q = if q = p then none else findKey bb.grid q := by
  unfold Board.removePoint
  rw [findKey_eraseKey, (foldl_addLibStep_frame sid p p.neighbors bb).1]

theorem removePoint_frame (bb : Board) (sid : Nat) (p : Point) :
    (bb.removePoint sid p).fresh = bb.fresh ∧
    (bb.removePoint sid p).num_rows = bb.num_rows ∧
    (bb.removePoint sid p).num_cols = bb.num_cols := by
  unfold Board.removePoint
  exact ⟨(foldl_addLibStep_frame sid p p.neighbors bb).2.1,
    (foldl_addLibStep_frame sid p p.neighbors bb).2.2.1,
    (foldl_addLibStep_frame sid p p.neighbors bb).2.2.2⟩

theorem removePoint_store_sid (bb : Board) (sid : Nat) (p : Point) :
    (bb.removePoint sid p).store sid = bb.store sid :=
  foldl_addLibStep_store_sid sid p p.neighbors bb

theorem removePoint_store_of_ne (bb : Board) (sid : Nat) (p : Point) {j : Nat}
    (hj : j ≠ sid) :
    (bb.removePoint sid p).store j =
      if ∃ n ∈ p.neighbors, findKey bb.grid n = some j then (bb.store j).add_liberty p
      else bb.store j :=
  foldl_addLibStep_store_of_ne sid p hj p.neighbors bb

theorem removePoint_store_shape (bb : Board) (sid : Nat) (p : Point) (j : Nat) :
    ((bb.removePoint sid p).store j).stones = (bb.store j).stones ∧
    ((bb.removePoint sid p).store j).color = (bb.store j).color := by
  by_cases hj : j = sid
  · subst hj
    rw [removePoint_store_sid]
    exact ⟨rfl, rfl⟩
  · rw [removePoint_store_of_ne bb sid p hj]
    by_cases hx : ∃ n ∈ p.neighbors, findKey bb.grid n = some j
    · rw [if_pos hx]; exact ⟨rfl, rfl⟩
    · rw [if_neg hx]; exact ⟨rfl, rfl⟩

theorem removeList_grid (sid : Nat) :
    ∀ (l : List Point) (bb : Board) (q : Point),
    findKey ((bb.removeList sid l).grid) q = if q ∈ l then none else findKey bb.grid q
  | [], bb, q => by simp [Board.removeList]
  | p :: t, bb, q => by
    show findKey (((bb.removePoint sid p).removeList sid t).grid) q = _
    rw [removeList_grid sid t _ q, removePoint_grid]
    by_cases hqt : q ∈ t
    · simp [hqt]
    · by_cases hqp : q = p <;> simp [hqt, hqp]

theorem removeList_frame (sid : Nat) :
    ∀ (l : List Point) (bb : Board),
    (bb.removeList sid l).fresh = bb.fresh ∧
    (bb.removeList sid l).num_rows = bb.num_rows ∧
    (bb.removeList sid l).num_cols = bb.num_cols
  | [], bb => ⟨rfl, rfl, rfl⟩
  | p :: t, bb => by
    show (((bb.removePoint sid p).removeList sid t).fresh = bb.fresh ∧ _ ∧ _)
    have ih := removeList_frame sid t (bb.removePoint sid p)
    have hf := removePoint_frame bb sid p
    exact ⟨ih.1.trans hf.1, ih.2.1.trans hf.2.1, ih.2.2.trans hf.2.2⟩

theorem removeList_store_shape (sid : Nat) :
    ∀ (l : List Point) (bb : Board) (j : Nat),
    ((bb.removeList sid l).store j).stones = (bb.store j).stones ∧
    ((bb.removeList sid l).store j).color = (bb.store j).color
  | [], bb, j => ⟨rfl, rfl⟩
  | p :: t, bb, j => by
    show ((((bb.removePoint sid p).removeList sid t).store j).stones = _ ∧ _)
    have ih := removeList_store_shape sid t (bb.removePoint sid p) j
    have hp := removePoint_store_shape bb sid p j
    exact ⟨ih.1.trans hp.1, ih.2.trans hp.2⟩

theorem remove_string_grid (bb : Board) (sid : Nat) (q : Point) :
    findKey (bb.remove_string sid).grid q =
      if q ∈ (bb.store sid).stones then none else findKey bb.grid q := by
  unfold Board.remove_string
  rw [removeList_grid]
  by_cases hq : q ∈ (bb.store sid).stones
  · rw [if_pos ((mem_sortPoints _ q).mpr hq), if_pos hq]
  · rw [if_neg (fun h => hq ((mem_sortPoints _ q).mp h)), if_neg hq]

theorem remove_string_frame (bb : Board) (sid : Nat) :
    (bb.remove_string sid).fresh = bb.fresh ∧
    (bb.remove_string sid).num_rows = bb.num_rows ∧
    (bb.remove_string sid).num_cols = bb.num_cols :=
  removeList_frame sid _ bb

theorem remove_string_store_shape (bb : Board) (sid : Nat) (j : Nat) :
    ((bb.remove_string sid).store j).stones = (bb.store j).stones ∧
    ((bb.remove_string sid).store j).color = (bb.store j).color :=
  removeList_store_shape sid _ bb j

theorem foldl_reduceStep_frame (point : Point) :
    ∀ (l : List Nat) (bb : Board),
    (l.foldl (Board.reduceStep point) bb).grid = bb.grid ∧
    (l.foldl (Board.reduceStep point) bb).fresh = bb.fresh ∧
    (l.foldl (Board.reduceStep point) bb).num_rows = bb.num_rows ∧
    (l.foldl (Board.reduceStep point) bb).num_cols = bb.num_cols
  | [], bb => ⟨rfl, rfl, rfl, rfl⟩
  | j :: t, bb => by
    simp only [List.foldl_cons]
    have ih := foldl_reduceStep_frame point t (Board.reduceStep point bb j)
    exact ⟨ih.1, ih.2.1, ih.2.2.1, ih.2.2.2⟩

theorem reduceStep_store_shape (point : Point) (bb : Board) (k j : Nat) :
    ((Board.reduceStep point bb k).store j).stones = (bb.store j).stones ∧
    ((Board.reduceStep point bb k).store j).color = (bb.store j).color := by
  by_cases hjk : j = k
  · subst hjk
    simp [Board.reduceStep, Board.setStore, updateStore]
  · simp [Board.reduceStep, Board.setStore, updateStore, hjk]

theorem foldl_reduceStep_store_shape (point : Point) :
    ∀ (l : List Nat) (bb : Board) (j : Nat),
    ((l.foldl (Board.reduceStep point) bb).store j).stones = (bb.store j).stones ∧
    ((l.foldl (Board.reduceStep point) bb).store j).color = (bb.store j).color
  | [], bb, j => ⟨rfl, rfl⟩
  | k :: t, bb, j => by
    simp only [List.foldl_cons]
    have ih := foldl_reduceStep_store_shape point t (Board.reduceStep point bb k) j
    have hstep := reduceStep_store_shape point bb k j
    exact ⟨ih.1.trans hstep.1, ih.2.trans hstep.2⟩

theorem foldl_reduceStep_store (point : Point) :
    ∀ (l : List Nat) (bb : Board) (j : Nat), l.Nodup →
    (l.foldl (Board.reduceStep point) bb).store j =
      if j ∈ l then (bb.store j).remove_liberty point else bb.store j
  | [], bb, j, _ => by simp
  | k :: t, bb, j, hnd => by
    simp only [List.foldl_cons]
    have hnd' := (List.nodup_cons.mp hnd)
    rw [foldl_reduceStep_store point t _ j hnd'.2]
    simp only [List.mem_cons]
    by_cases hjk : j = k
    · subst hjk
      rw [if_neg (fun h => hnd'.1 h), if_pos (Or.inl rfl)]
      show (updateStore bb.store j _) j = _
      rw [updateStore_same]
    · by_cases hjt : j ∈ t
      · rw [if_pos hjt, if_pos (Or.inr hjt)]
        show ((updateStore bb.store k _) j).remove_liberty point = _
        rw [updateStore_other _ _ _ _ hjk]
      · rw [if_neg hjt, if_neg (fun h => h.elim hjk hjt)]
        show (updateStore bb.store k _) j = _
        rw [updateStore_other _ _ _ _ hjk]

theorem captureStep_store_shape (bb : Board) (k j : Nat) :
    ((Board.captureStep bb k).store j).stones = (bb.store j).stones ∧
    ((Board.captureStep bb k).store j).color = (bb.store j).color := by
  unfold Board.captureStep
  by_cases hz : (bb.store k).num_liberties = 0
  · rw [if_pos hz]
    exact remove_string_store_shape bb k j
  · rw [if_neg hz]
    exact ⟨rfl, rfl⟩

theorem foldl_captureStep_store_shape :
    ∀ (l : List Nat) (bb : Board) (j : Nat),
    ((l.foldl Board.captureStep bb).store j).stones = (bb.store j).stones ∧
    ((l.foldl Board.captureStep bb).store j).color = (bb.store j).color
  | [], bb, j => ⟨rfl, rfl⟩
  | k :: t, bb, j => by
    simp only [List.foldl_cons]
    have ih := foldl_captureStep_store_shape t (Board.captureStep bb k) j
    have hstep := captureStep_store_shape bb k j
    exact ⟨ih.1.trans hstep.1, ih.2.trans hstep.2⟩

theorem foldl_captureStep_frame :
    ∀ (l : List Nat) (bb : Board),
    (l.foldl Board.captureStep bb).fresh = bb.fresh ∧
    (l.foldl Board.captureStep bb).num_rows = bb.num_rows ∧
    (l.foldl Board.captureStep bb).num_cols = bb.num_cols
  | [], bb => ⟨rfl, rfl, rfl⟩
  | k :: t, bb => by
    simp only [List.foldl_cons]
    have ih := foldl_captureStep_frame t (Board.captureStep bb k)
    have hstep : (Board.captureStep bb k).fresh = bb.fresh ∧
        (Board.captureStep bb k).num_rows = bb.num_rows ∧
        (Board.captureStep bb k).num_cols = bb.num_cols := by
      unfold Board.captureStep
      by_cases hz : (bb.store k).num_liberties = 0
      · rw [if_pos hz]
        exact remove_string_frame bb k
      · rw [if_neg hz]
        exact ⟨rfl, rfl, rfl⟩
    exact ⟨ih.1.trans hstep.1, ih.2.1.trans hstep.2.1, ih.2.2.trans hstep.2.2⟩

theorem foldl_captureStep_findKey (point : Point) (i : Nat) :
    ∀ (l : List Nat) (bb : Board),
    (∀ j ∈ l, point ∉ (bb.store j).stones) →
    findKey bb.grid point = some i →
    findKey ((l.foldl Board.captureStep bb).grid) point = some i
  | [], bb, _, h => h
  | k :: t, bb, hmem, h => by
    simp only [List.foldl_cons]
    refine foldl_captureStep_findKey point i t (Board.captureStep bb k) ?_ ?_
    · intro j hj
      rw [(captureStep_store_shape bb k j).1]
      exact hmem j (List.mem_cons_of_mem _ hj)
    · unfold Board.captureStep
      by_cases hz : (bb.store k).num_liberties = 0
      · rw [if_pos hz, remove_string_grid,
          if_neg (hmem k (List.mem_cons_self _ _))]
        exact h
      · rw [if_neg hz]
        exact h

theorem collectStep_opp (b : Board) (player : Player)
    (acc : List Nat × List Nat × List Point) (n : Point) :
    (b.collectStep player acc n).2.1 = acc.2.1 ∨
    ∃ i, b.is_on_grid n = true ∧ findKey b.grid n = some i ∧
      (b.store i).color ≠ player ∧
      (b.collectStep player acc n).2.1 = acc.2.1 ++ [i] := by
  by_cases hon : b.is_on_grid n
  · cases hf : findKey b.grid n with
    | none =>
      simp only [Board.collectStep, hf, if_pos hon]
      exact Or.inl (by trivial)
    | some i =>
      simp only [Board.collectStep, hf, if_pos hon]
      by_cases hc : (b.store i).color = player
      · rw [if_pos hc]
        by_cases hany : acc.1.any (fun j => b.store j == b.store i)
        · rw [if_pos hany]
          exact Or.inl (by trivial)
        · rw [if_neg hany]
          exact Or.inl (by trivial)
      · rw [if_neg hc]
        by_cases hany : acc.2.1.any (fun j => b.store j == b.store i)
        · rw [if_pos hany]
          exact Or.inl (by trivial)
        · rw [if_neg hany]
          exact Or.inr ⟨i, hon, by trivial, hc, by trivial⟩
  · simp only [Board.collectStep, if_neg hon]
    exact Or.inl (by trivial)

theorem collectStep_same (b : Board) (player : Player)
    (acc : List Nat × List Nat × List Point) (n : Point) :
    (b.collectStep player acc n).1 = acc.1 ∨
    ∃ i, b.is_on_grid n = true ∧ findKey b.grid n = some i ∧
      (b.store i).color = player ∧
      (b.collectStep player acc n).1 = acc.1 ++ [i] := by
  by_cases hon : b.is_on_grid n
  · cases hf : findKey b.grid n with
    | none =>
      simp only [Board.collectStep, hf, if_pos hon]
      exact Or.inl (by trivial)
    | some i =>
      simp only [Board.collectStep, hf, if_pos hon]
      by_cases hc : (b.store i).color = player
      · rw [if_pos hc]
        by_cases hany : acc.1.any (fun j => b.store j == b.store i)
        · rw [if_pos hany]
          exact Or.inl (by trivial)
        · rw [if_neg hany]
          exact Or.inr ⟨i, hon, by trivial, hc, by trivial⟩
      · rw [if_neg hc]
        by_cases hany : acc.2.1.any (fun j => b.store j == b.store i)
        · rw [if_pos hany]
          exact Or.inl (by trivial)
        · rw [if_neg hany]
          exact Or.inl (by trivial)
  · simp only [Board.collectStep, if_neg hon]
    exact Or.inl (by trivial)

theorem collectStep_opp_mono (b : Board) (player : Player)
    (acc : List Nat × List Nat × List Point) (n : Point) {j : Nat}
    (hj : j ∈ acc.2.1) : j ∈ (b.collectStep player acc n).2.1 := by
  rcases collectStep_opp b player acc n with h | ⟨i, _, _, _, h⟩
  · rw [h]; exact hj
  · rw [h]; exact List.mem_append_left _ hj

theorem collectStep_opp_complete (b : Board) (player : Player)
    (acc : List Nat × List Nat × List Point) (n : Point) (i : Nat)
    (hon : b.is_on_grid n = true) (hf : findKey b.grid n = some i)
    (hc : (b.store i).color ≠ player) :
    ∃ j ∈ (b.collectStep player acc n).2.1, b.store j = b.store i := by
  simp only [Board.collectStep, hf, if_pos hon]
  rw [if_neg hc]
  by_cases hany : acc.2.1.any (fun j => b.store j == b.store i)
  · rw [if_pos hany]
    obtain ⟨j, hj, hbeq⟩ := List.any_eq_true.mp hany
    exact ⟨j, hj, eq_of_beq hbeq⟩
  · rw [if_neg hany]
    exact ⟨i, List.mem_append_right _ (List.mem_singleton_self i), rfl⟩

theorem collectStep_opp_pairwise (b : Board) (player : Player)
    (acc : List Nat × List Nat × List Point) (n : Point)
    (h : acc.2.1.Pairwise (fun j k => b.store j ≠ b.store k)) :
    ((b.collectStep player acc n).2.1).Pairwise (fun j k => b.store j ≠ b.store k) := by
  by_cases hon : b.is_on_grid n
  · cases hf : findKey b.grid n with
    | none =>
      simp only [Board.collectStep, hf, if_pos hon]
      exact h
    | some i =>
      simp only [Board.collectStep, hf, if_pos hon]
      by_cases hc : (b.store i).color = player
      · rw [if_pos hc]
        by_cases hany : acc.1.any (fun j => b.store j == b.store i)
        · rw [if_pos hany]; exact h
        · rw [if_neg hany]; exact h
      · rw [if_neg hc]
        by_cases hany : acc.2.1.any (fun j => b.store j == b.store i)
        · rw [if_pos hany]; exact h
        · rw [if_neg hany]
          refine List.pairwise_append.mpr ⟨h, List.pairwise_singleton _ _, ?_⟩
          intro a ha c hc'
          rw [List.mem_singleton.mp hc']
          intro heq
          have : acc.2.1.any (fun j => b.store j == b.store i) = true :=
            List.any_eq_true.mpr ⟨a, ha, beq_iff_eq.mpr heq⟩
          exact hany this
  · simp only [Board.collectStep, if_neg hon]
    exact h

theorem collectFold_opp_sound (b : Board) (player : Player) :
    ∀ (ns : List Point) (acc : List Nat × List Nat × List Point),
    ∀ j ∈ (ns.foldl (b.collectStep player) acc).2.1,
      j ∈ acc.2.1 ∨ ∃ n ∈ ns, b.is_on_grid n = true ∧ findKey b.grid n = some j ∧
        (b.store j).color ≠ player
  | [], acc, j, hj => Or.inl hj
  | n :: t, acc, j, hj => by
    rcases collectFold_opp_sound b player t (b.collectStep player acc n) j hj with
      h | ⟨n', hn', h⟩
    · rcases collectStep_opp b player acc n with hs | ⟨i, hon, hf, hc, hs⟩
      · rw [hs] at h
        exact Or.inl h
      · rw [hs] at h
        rcases List.mem_append.mp h with h' | h'
        · exact Or.inl h'
        · rw [List.mem_singleton.mp h']
          exact Or.inr ⟨n, List.mem_cons_self _ _, hon, hf, hc⟩
    · exact Or.inr ⟨n', List.mem_cons_of_mem _ hn', h⟩

theorem collectFold_opp_mono (b : Board) (player : Player) :
    ∀ (ns : List Point) (acc : List Nat × List Nat × List Point) {j : Nat},
    j ∈ acc.2.1 → j ∈ (ns.foldl (b.collectStep player) acc).2.1
  | [], _, _, hj => hj
  | n :: t, acc, j, hj =>
    collectFold_opp_mono b player t (b.collectStep player acc n)
      (collectStep_opp_mono b player acc n hj)

theorem collectFold_opp_complete (b : Board) (player : Player) :
    ∀ (ns : List Point) (acc : List Nat × List Nat × List Point) (n : Point) (i : Nat),
    n ∈ ns → b.is_on_grid n = true → findKey b.grid n = some i →
    (b.store i).color ≠ player →
    ∃ j ∈ (ns.foldl (b.collectStep player) acc).2.1, b.store j = b.store i
  | [], _, _, _, hn, _, _, _ => absurd hn (List.not_mem_nil _)
  | n' :: t, acc, n, i, hn, hon, hf, hc => by
    rcases List.mem_cons.mp hn with he | ht
    · subst he
      obtain ⟨j, hj, heq⟩ := collectStep_opp_complete b player acc n i hon hf hc
      exact ⟨j, collectFold_opp_mono b player t _ hj, heq⟩
    · exact collectFold_opp_complete b player t _ n i ht hon hf hc

theorem collectFold_opp_pairwise (b : Board) (player : Player) :
    ∀ (ns : List Point) (acc : List Nat × List Nat × List Point),
    acc.2.1.Pairwise (fun j k => b.store j ≠ b.store k) →
    ((ns.foldl (b.collectStep player) acc).2.1).Pairwise
      (fun j k => b.store j ≠ b.store k)
  | [], _, h => h
  | n :: t, acc, h =>
    collectFold_opp_pairwise b player t _ (collectStep_opp_pairwise b player acc n h)

theorem collect_opp_sound (b : Board) (player : Player) (point : Point) :
    ∀ j ∈ (b.collect player point).2.1,
      ∃ n ∈ point.neighbors, b.is_on_grid n = true ∧ findKey b.grid n = some j ∧
        (b.store j).color ≠ player := by
  intro j hj
  rcases collectFold_opp_sound b player point.neighbors ([], [], []) j hj with h | h
  · exact absurd h (List.not_mem_nil _)
  · exact h

theorem collect_opp_pairwise (b : Board) (player : Player) (point : Point) :
    ((b.collect player point).2.1).Pairwise (fun j k => b.store j ≠ b.store k) :=
  collectFold_opp_pairwise b player point.neighbors ([], [], []) List.Pairwise.nil

theorem collect_opp_nodup (b : Board) (player : Player) (point : Point) :
    ((b.collect player point).2.1).Nodup :=
  (collect_opp_pairwise b player point).imp
    (fun h heq => h (congrArg b.store heq))

theorem foldl_merge_store_stones_subset (b : Board) :
    ∀ (l : List Nat) (g : GoString),
    g.stones ⊆ (l.foldl (fun g j => g.merged_with (b.store j)) g).stones
  | [], _ => subset_rfl
  | j :: t, g => by
    simp only [List.foldl_cons]
    refine subset_trans ?_ (foldl_merge_store_stones_subset b t (g.merged_with (b.store j)))
    rw [GoString.merged_with_stones]
    exact Finset.subset_union_left

theorem point_mem_newString (b : Board) (player : Player) (point : Point) :
    point ∈ (b.newString player point).stones := by
  unfold Board.newString
  exact foldl_merge_store_stones_subset b _ _ (Finset.mem_singleton_self point)

theorem placeWrite_findKey (b : Board) (player : Player) (point q : Point) :
    findKey (b.placeWrite player point).grid q =
      if q ∈ (b.newString player point).stones then some b.fresh
      else findKey b.grid q := by
  unfold Board.placeWrite
  rw [findKey_writeList]
  by_cases hq : q ∈ (b.newString player point).stones
  · rw [if_pos ((mem_sortPoints _ _).mpr hq), if_pos hq]
  · rw [if_neg (fun h => hq ((mem_sortPoints _ _).mp h)), if_neg hq]

theorem placeWrite_store (b : Board) (player : Player) (point : Point) :
    (b.placeWrite player point).store =
      updateStore b.store b.fresh (b.newString player point) := rfl

/-- Key step for C2: after `place_stone`, the played point is mapped to the
freshly allocated group identifier, provided the played point is not listed
among any mapped group's stones and all mapped identifiers are below `fresh`
(both hold on boards built by the engine). -/
theorem place_stone_findKey_point (b : Board) (player : Player) (point : Point)
    (hstones : ∀ e ∈ b.grid, point ∉ (b.store e.2).stones)
    (hfresh : ∀ e ∈ b.grid, e.2 < b.fresh) :
    findKey (b.place_stone player point).grid point = some b.fresh := by
  unfold Board.place_stone
  apply foldl_captureStep_findKey
  · intro j hj
    obtain ⟨n, _, _, hf, _⟩ := collect_opp_sound b player point j hj
    have hjmem : (n, j) ∈ b.grid := findKey_mem hf
    have hjfresh : j ≠ b.fresh := Nat.ne_of_lt (hfresh _ hjmem)
    unfold Board.placeReduced
    rw [(foldl_reduceStep_store_shape point _ _ j).1, placeWrite_store,
      updateStore_other _ _ _ _ hjfresh]
    exact hstones _ hjmem
  · unfold Board.placeReduced
    rw [(foldl_reduceStep_frame point _ _).1, placeWrite_findKey,
      if_pos (point_mem_newString b player point)]

/-- The situation walk finds a match exactly when this state or one of its
ancestors matches. -/
theorem chainHasSituation_iff (sit : Player × Board) :
    ∀ s : GameState, (s.chainHasSituation sit = true ↔
      (situationEq s.situation sit = true ∨
        ∃ a ∈ s.ancestors, situationEq a.situation sit = true))
  | .root b np lm => by
    simp [GameState.chainHasSituation, GameState.ancestors, GameState.situation,
      GameState.next_player, GameState.board]
  | .child b np prev lm => by
    have ih := chainHasSituation_iff sit prev
    simp only [GameState.chainHasSituation, GameState.ancestors, GameState.situation,
      GameState.next_player, GameState.board, Bool.or_eq_true, List.mem_cons]
    rw [ih]
    simp only [GameState.situation]
    constructor
    · rintro (h | h | ⟨a, ha, h⟩)
      · exact Or.inl h
      · exact Or.inr ⟨prev, Or.inl rfl, h⟩
      · exact Or.inr ⟨a, Or.inr ha, h⟩
    · rintro (h | ⟨a, ha | ha, h⟩)
      · exact Or.inl h
      · subst ha; exact Or.inr (Or.inl h)
      · exact Or.inr (Or.inr ⟨a, ha, h⟩)

/-- C1: for a Play move, `does_move_violate_ko` returns true iff the situation
`(player.other, board after simulating the placement on a clone)` structurally
equals the situation of some strict ancestor on the previous-state chain; for
non-Play (Pass/Resign) moves it returns false. -/
theorem does_move_violate_ko_spec (s : GameState) (player : Player) (m : Move) :
    (∀ p, m.point = some p →
      (s.does_move_violate_ko player m = true ↔
        ∃ a ∈ s.ancestors,
          situationEq a.situation (player.other, s.board.place_stone player p) = true)) ∧
    (m.point = none → s.does_move_violate_ko player m = false) := by
  constructor
  · intro p hp
    cases s with
    | root b np lm =>
      simp [GameState.does_move_violate_ko, hp, GameState.previous_state,
        GameState.ancestors]
    | child b np prev lm =>
      simp only [GameState.does_move_violate_ko, hp, GameState.previous_state,
        GameState.ancestors, GameState.board, GameState.next_player]
      rw [chainHasSituation_iff]
      simp only [List.mem_cons]
      constructor
      · rintro (h | ⟨a, ha, h⟩)
        · exact ⟨prev, Or.inl rfl, h⟩
        · exact ⟨a, Or.inr ha, h⟩
      · rintro ⟨a, ha | ha, h⟩
        · subst ha; exact Or.inl h
        · exact Or.inr ⟨a, ha, h⟩
  · intro hp
    simp [GameState.does_move_violate_ko, hp]

/-- A two-state history whose ancestor already shows the situation that
placing a black stone at (1,1) would recreate. -/
def exKoAncestor : GameState :=
  GameState.init ((GameState.new_game 2).board.place_stone Player.black ⟨1, 1⟩)
    Player.white none none

/-- The ko-test state: empty board, black to move, parent `exKoAncestor`. -/
def exKoState : GameState :=
  GameState.init (GameState.new_game 2).board Player.black (some exKoAncestor) none

/-- Witness for C1: a concrete superko violation is detected. -/
theorem does_move_violate_ko_spec_witness :
    exKoState.does_move_violate_ko Player.black (Move.play ⟨1, 1⟩) = true :=
  ((does_move_violate_ko_spec exKoState Player.black (Move.play ⟨1, 1⟩)).1 ⟨1, 1⟩
    rfl).mpr ⟨exKoAncestor, List.mem_cons_self _ _, by decide⟩

/-- C8: `is_over` is false on a state with no last move; true when the last
move is Resign; otherwise, when a parent exists, true iff both the last move
and the parent's last move are Pass (in particular false when the parent has
no last move). -/
theorem is_over_spec (s : GameState) :
    (s.last_move = none → s.is_over = false) ∧
    (∀ m, s.last_move = some m → m.is_resign = true → s.is_over = true) ∧
    (∀ m ps, s.last_move = some m → m.is_resign = false → s.previous_state = some ps →
      (s.is_over = true ↔
        (m.is_pass = true ∧ ∃ m2, ps.last_move = some m2 ∧ m2.is_pass = true))) := by
  refine ⟨?_, ?_, ?_⟩
  · intro h
    cases s <;> simp_all [GameState.is_over, GameState.last_move]
  · intro m hm hr
    cases s <;> simp_all [GameState.is_over, GameState.last_move]
  · intro m ps hm hr hps
    cases s with
    | root b np lm => simp [GameState.previous_state] at hps
    | child b np prev lm =>
      simp only [GameState.last_move] at hm
      simp only [GameState.previous_state, Option.some.injEq] at hps
      subst hm
      subst hps
      cases prev with
      | root b2 np2 lm2 =>
        cases lm2 <;>
          simp [GameState.is_over, GameState.last_move, GameState.previous_state, hr,
            Bool.and_eq_true]
      | child b2 np2 prev2 lm2 =>
        cases lm2 <;>
          simp [GameState.is_over, GameState.last_move, GameState.previous_state, hr,
            Bool.and_eq_true]

/-- Witness for C8: resignation ends the game, and so does a double pass. -/
theorem is_over_spec_witness :
    ((GameState.new_game 2).apply_move Move.resign).is_over = true ∧
    (((GameState.new_game 2).apply_move Move.pass_turn).apply_move
      Move.pass_turn).is_over = true :=
  ⟨(is_over_spec ((GameState.new_game 2).apply_move Move.resign)).2.1 Move.resign rfl rfl,
    ((is_over_spec (((GameState.new_game 2).apply_move Move.pass_turn).apply_move
        Move.pass_turn)).2.2 Move.pass_turn ((GameState.new_game 2).apply_move Move.pass_turn)
      rfl rfl rfl).mpr ⟨rfl, Move.pass_turn, rfl, rfl⟩⟩

/-- C9: `apply_move` leaves the receiver untouched (automatic in this
value-level embedding) and returns a child whose board is the receiver's board
with the stone placed (on a clone) for a Play move, the receiver's own board
for Pass/Resign, and whose player is flipped, parent is the receiver, and
last move is the applied move. -/
theorem apply_move_spec (s : GameState) (m : Move) :
    ((s.apply_move m).next_player = s.next_player.other) ∧
    ((s.apply_move m).previous_state = some s) ∧
    ((s.apply_move m).last_move = some m) ∧
    (∀ p, m.point = some p →
      (s.apply_move m).board = s.board.place_stone s.next_player p) ∧
    (m.point = none → (s.apply_move m).board = s.board) := by
  cases hm : m.point <;>
    simp_all [GameState.apply_move, GameState.init, GameState.next_player,
      GameState.previous_state, GameState.last_move, GameState.board]

/-- Witness for C9 on the opening move of a 3×3 game. -/
theorem apply_move_spec_witness :
    ((GameState.new_game 3).apply_move (Move.play ⟨1, 1⟩)).board
        = (GameState.new_game 3).board.place_stone Player.black ⟨1, 1⟩ ∧
    ((GameState.new_game 3).apply_move (Move.play ⟨1, 1⟩)).next_player = Player.white :=
  ⟨(apply_move_spec (GameState.new_game 3) (Move.play ⟨1, 1⟩)).2.2.2.1 ⟨1, 1⟩ rfl,
    (apply_move_spec (GameState.new_game 3) (Move.play ⟨1, 1⟩)).1⟩

/-- C10: once the game is over, `is_valid_move` rejects every move (Pass and
Resign included), yet `legal_moves` still returns exactly `[Pass, Resign]`
because those two are appended unconditionally after the board scan. -/
theorem legal_moves_over_spec (s : GameState) (h : s.is_over = true) :
    s.legal_moves = [Move.pass_turn, Move.resign] ∧
    ∀ m, s.is_valid_move m = false := by
  have hv : ∀ m, s.is_valid_move m = false := by
    intro m
    simp [GameState.is_valid_move, h]
  refine ⟨?_, hv⟩
  simp [GameState.legal_moves, hv]

/-- Witness for C10 after a double pass on a 2×2 board. -/
theorem legal_moves_over_spec_witness :
    (((GameState.new_game 2).apply_move Move.pass_turn).apply_move
        Move.pass_turn).legal_moves = [Move.pass_turn, Move.resign] :=
  (legal_moves_over_spec _ (by decide)).1

theorem collectStep_same_mono (b : Board) (player : Player)
    (acc : List Nat × List Nat × List Point) (n : Point) {j : Nat}
    (hj : j ∈ acc.1) : j ∈ (b.collectStep player acc n).1 := by
  rcases collectStep_same b player acc n with h | ⟨i, _, _, _, h⟩
  · rw [h]; exact hj
  · rw [h]; exact List.mem_append_left _ hj

theorem collectStep_same_complete (b : Board) (player : Player)
    (acc : List Nat × List Nat × List Point) (n : Point) (i : Nat)
    (hon : b.is_on_grid n = true) (hf : findKey b.grid n = some i)
    (hc : (b.store i).color = player) :
    ∃ j ∈ (b.collectStep player acc n).1, b.store j = b.store i := by
  simp only [Board.collectStep, hf, if_pos hon]
  rw [if_pos hc]
  by_cases hany : acc.1.any (fun j => b.store j == b.store i)
  · rw [if_pos hany]
    obtain ⟨j, hj, hbeq⟩ := List.any_eq_true.mp hany
    exact ⟨j, hj, eq_of_beq hbeq⟩
  · rw [if_neg hany]
    exact ⟨i, List.mem_append_right _ (List.mem_singleton_self i), rfl⟩

theorem collectStep_same_pairwise (b : Board) (player : Player)
    (acc : List Nat × List Nat × List Point) (n : Point)
    (h : acc.1.Pairwise (fun j k => b.store j ≠ b.store k)) :
    ((b.collectStep player acc n).1).Pairwise (fun j k => b.store j ≠ b.store k) := by
  by_cases hon : b.is_on_grid n
  · cases hf : findKey b.grid n with
    | none =>
      simp only [Board.collectStep, hf, if_pos hon]
      exact h
    | some i =>
      simp only [Board.collectStep, hf, if_pos hon]
      by_cases hc : (b.store i).color = player
      · rw [if_pos hc]
        by_cases hany : acc.1.any (fun j => b.store j == b.store i)
        · rw [if_pos hany]; exact h
        · rw [if_neg hany]
          refine List.pairwise_append.mpr ⟨h, List.pairwise_singleton _ _, ?_⟩
          intro a ha c hc'
          rw [List.mem_singleton.mp hc']
          intro heq
          exact hany (List.any_eq_true.mpr ⟨a, ha, beq_iff_eq.mpr heq⟩)
      · rw [if_neg hc]
        by_cases hany : acc.2.1.any (fun j => b.store j == b.store i)
        · rw [if_pos hany]; exact h
        · rw [if_neg hany]; exact h
  · simp only [Board.collectStep, if_neg hon]
    exact h

theorem collectFold_same_sound (b : Board) (player : Player) :
    ∀ (ns : List Point) (acc : List Nat × List Nat × List Point),
    ∀ j ∈ (ns.foldl (b.collectStep player) acc).1,
      j ∈ acc.1 ∨ ∃ n ∈ ns, b.is_on_grid n = true ∧ findKey b.grid n = some j ∧
        (b.store j).color = player
  | [], acc, j, hj => Or.inl hj
  | n :: t, acc, j, hj => by
    rcases collectFold_same_sound b player t (b.collectStep player acc n) j hj with
      h | ⟨n', hn', h⟩
    · rcases collectStep_same b player acc n with hs | ⟨i, hon, hf, hc, hs⟩
      · rw [hs] at h
        exact Or.inl h
      · rw [hs] at h
        rcases List.mem_append.mp h with h' | h'
        · exact Or.inl h'
        · rw [List.mem_singleton.mp h']
          exact Or.inr ⟨n, List.mem_cons_self _ _, hon, hf, hc⟩
    · exact Or.inr ⟨n', List.mem_cons_of_mem _ hn', h⟩

theorem collectFold_same_mono (b : Board) (player : Player) :
    ∀ (ns : List Point) (acc : List Nat × List Nat × List Point) {j : Nat},
    j ∈ acc.1 → j ∈ (ns.foldl (b.collectStep player) acc).1
  | [], _, _, hj => hj
  | n :: t, acc, j, hj =>
    collectFold_same_mono b player t (b.collectStep player acc n)
      (collectStep_same_mono b player acc n hj)

theorem collectFold_same_complete (b : Board) (player : Player) :
    ∀ (ns : List Point) (acc : List Nat × List Nat × List Point) (n : Point) (i : Nat),
    n ∈ ns → b.is_on_grid n = true → findKey b.grid n = some i →
    (b.store i).color = player →
    ∃ j ∈ (ns.foldl (b.collectStep player) acc).1, b.store j = b.store i
  | [], _, _, _, hn, _, _, _ => absurd hn (List.not_mem_nil _)
  | n' :: t, acc, n, i, hn, hon, hf, hc => by
    rcases List.mem_cons.mp hn with he | ht
    · subst he
      obtain ⟨j, hj, heq⟩ := collectStep_same_complete b player acc n i hon hf hc
      exact ⟨j, collectFold_same_mono b player t _ hj, heq⟩
    · exact collectFold_same_complete b player t _ n i ht hon hf hc

theorem collectFold_same_pairwise (b : Board) (player : Player) :
    ∀ (ns : List Point) (acc : List Nat × List Nat × List Point),
    acc.1.Pairwise (fun j k => b.store j ≠ b.store k) →
    ((ns.foldl (b.collectStep player) acc).1).Pairwise
      (fun j k => b.store j ≠ b.store k)
  | [], _, h => h
  | n :: t, acc, h =>
    collectFold_same_pairwise b player t _ (collectStep_same_pairwise b player acc n h)

theorem collect_opp_complete (b : Board) (player : Player) (point : Point)
    (n : Point) (i : Nat) (hn : n ∈ point.neighbors) (hon : b.is_on_grid n = true)
    (hf : findKey b.grid n = some i) (hc : (b.store i).color ≠ player) :
    ∃ j ∈ (b.collect player point).2.1, b.store j = b.store i :=
  collectFold_opp_complete b player point.neighbors ([], [], []) n i hn hon hf hc

theorem collect_same_sound (b : Board) (player : Player) (point : Point) :
    ∀ j ∈ (b.collect player point).1,
      ∃ n ∈ point.neighbors, b.is_on_grid n = true ∧ findKey b.grid n = some j ∧
        (b.store j).color = player := by
  intro j hj
  rcases collectFold_same_sound b player point.neighbors ([], [], []) j hj with h | h
  · exact absurd h (List.not_mem_nil _)
  · exact h

theorem collect_same_complete (b : Board) (player : Player) (point : Point)
    (n : Point) (i : Nat) (hn : n ∈ point.neighbors) (hon : b.is_on_grid n = true)
    (hf : findKey b.grid n = some i) (hc : (b.store i).color = player) :
    ∃ j ∈ (b.collect player point).1, b.store j = b.store i :=
  collectFold_same_complete b player point.neighbors ([], [], []) n i hn hon hf hc

theorem collect_same_pairwise (b : Board) (player : Player) (point : Point) :
    ((b.collect player point).1).Pairwise (fun j k => b.store j ≠ b.store k) :=
  collectFold_same_pairwise b player point.neighbors ([], [], []) List.Pairwise.nil

theorem placeReduced_store (b : Board) (player : Player) (point : Point)
    (hfresh : ∀ e ∈ b.grid, e.2 < b.fresh) {j : Nat}
    (hj : j ∈ (b.collect player point).2.1) :
    (b.placeReduced player point).store j = (b.store j).remove_liberty point := by
  unfold Board.placeReduced
  rw [foldl_reduceStep_store point _ _ j (collect_opp_nodup b player point),
    if_pos hj, placeWrite_store]
  obtain ⟨n, _, _, hf, _⟩ := collect_opp_sound b player point j hj
  rw [updateStore_other _ _ _ _ (Nat.ne_of_lt (hfresh _ (findKey_mem hf)))]

/-- C2: for a Play move on an empty on-grid point (on a board whose mapped
groups do not list the played point among their stones and whose mapped
identifiers are below `fresh` — both automatic for engine-built boards),
`is_move_self_capture` is true exactly when the group covering the played
point after the simulated placement — with enemy captures already resolved by
`place_stone` — has zero liberties; non-Play moves are never self-capture. -/
theorem is_move_self_capture_spec (s : GameState) (player : Player) (m : Move) :
    (∀ p, m.point = some p →
      s.board.is_on_grid p = true →
      findKey s.board.grid p = none →
      (∀ e ∈ s.board.grid, p ∉ (s.board.store e.2).stones) →
      (∀ e ∈ s.board.grid, e.2 < s.board.fresh) →
      ∃ g, (s.board.place_stone player p).get_go_string p = some g ∧
        (s.is_move_self_capture player m = true ↔ g.num_liberties = 0)) ∧
    (m.point = none → s.is_move_self_capture player m = false) := by
  constructor
  · intro p hp _ _ hstones hfresh
    have hfind := place_stone_findKey_point s.board player p hstones hfresh
    refine ⟨(s.board.place_stone player p).store s.board.fresh, ?_, ?_⟩
    · unfold Board.get_go_string
      rw [hfind]
      rfl
    · simp only [GameState.is_move_self_capture, hp]
      have hgo : (s.board.place_stone player p).get_go_string p =
          some ((s.board.place_stone player p).store s.board.fresh) := by
        unfold Board.get_go_string
        rw [hfind]
        rfl
      rw [hgo]
      simp [Nat.beq_eq_true_eq]
  · intro hp
    simp [GameState.is_move_self_capture, hp]

/-- A 3×3 position: white single stones at (1,2) and (2,1) (the first with its
last liberty at (1,1)), black stones at (1,3) and (2,2). -/
def exCapBoard : Board :=
  ⟨3, 3,
    [(⟨1, 2⟩, 0), (⟨1, 3⟩, 1), (⟨2, 2⟩, 2), (⟨2, 1⟩, 3)],
    fun j =>
      if j = 0 then ⟨Player.white, {⟨1, 2⟩}, {⟨1, 1⟩}⟩
      else if j = 1 then ⟨Player.black, {⟨1, 3⟩}, {⟨2, 3⟩}⟩
      else if j = 2 then ⟨Player.black, {⟨2, 2⟩}, {⟨2, 1⟩, ⟨2, 3⟩, ⟨3, 2⟩}⟩
      else if j = 3 then ⟨Player.white, {⟨2, 1⟩}, {⟨1, 1⟩, ⟨3, 1⟩}⟩
      else ⟨Player.black, ∅, ∅⟩,
    4⟩

/-- The game state holding `exCapBoard`, black to move. -/
def exCapState : GameState := GameState.init exCapBoard Player.black none none

/-- Witness for C2: black playing (1,1) has no liberty of its own but captures
the white stone at (1,2) and is therefore not self-capture. -/
theorem is_move_self_capture_spec_witness :
    exCapState.is_move_self_capture Player.black (Move.play ⟨1, 1⟩) = false := by
  obtain ⟨g, hg, hiff⟩ :=
    (is_move_self_capture_spec exCapState Player.black (Move.play ⟨1, 1⟩)).1 ⟨1, 1⟩
      rfl (by decide) (by decide) (by decide) (by decide)
  have h1 : ((exCapState.board.place_stone Player.black ⟨1, 1⟩).get_go_string
      ⟨1, 1⟩).map GoString.num_liberties = some 1 := by decide
  rw [hg] at h1
  simp only [Option.map_some', Option.some.injEq] at h1
  cases hb : exCapState.is_move_self_capture Player.black (Move.play ⟨1, 1⟩) with
  | false => rfl
  | true =>
    have h0 := hiff.mp hb
    rw [h1] at h0
    exact absurd h0 one_ne_zero

/-- A degenerate 3×3 board on which two distinct group instances (ids 1
and 2) hold structurally equal values: same color, same stone set
{(1,2), (3,2)}, same liberty set {(2,2)}. -/
def exDupBoard : Board :=
  ⟨3, 3,
    [(⟨1, 2⟩, 1), (⟨3, 2⟩, 2)],
    fun j =>
      if j = 1 then ⟨Player.white, {⟨1, 2⟩, ⟨3, 2⟩}, {⟨2, 2⟩}⟩
      else if j = 2 then ⟨Player.white, {⟨1, 2⟩, ⟨3, 2⟩}, {⟨2, 2⟩}⟩
      else ⟨Player.black, ∅, ∅⟩,
    3⟩

/-- C7 counterexample: on `exDupBoard`, black playing (2,2) touches both
distinct instances 1 and 2, but Python's `not in` dedup uses structural
`__eq__`, so only instance 1 is collected as an adjacency event and instance 2
keeps the placed point as a liberty — the claim's identity-based
deduplication (which would record both and remove the liberty from each) does
not hold. -/
theorem place_stone_dedup_counterexample :
    (exDupBoard.collect Player.black ⟨2, 2⟩).2.1 = [1] ∧
    ⟨2, 2⟩ ∈ ((exDupBoard.place_stone Player.black ⟨2, 2⟩).store 2).liberties := by
  decide

/-- C7 (amended): the friendly and enemy adjacency lists are deduplicated by
structural equality of the group values (Python `==`), not by identity: every
collected id is the id of some on-grid neighbor of the placed point with the
matching color; every adjacent group of the matching color has a structurally
equal representative in the list; the collected values are pairwise
structurally distinct; and each collected enemy id — one per structural value
— loses exactly the placed point as a liberty in the reduction phase. -/
theorem place_stone_dedup_structural (b : Board) (player : Player) (point : Point)
    (hfresh : ∀ e ∈ b.grid, e.2 < b.fresh) :
    (∀ j ∈ (b.collect player point).2.1,
      ∃ n ∈ point.neighbors, b.is_on_grid n = true ∧ findKey b.grid n = some j ∧
        (b.store j).color ≠ player) ∧
    (∀ n ∈ point.neighbors, b.is_on_grid n = true →
      ∀ i, findKey b.grid n = some i → (b.store i).color ≠ player →
        ∃ j ∈ (b.collect player point).2.1, b.store j = b.store i) ∧
    ((b.collect player point).2.1.Pairwise (fun j k => b.store j ≠ b.store k)) ∧
    (∀ j ∈ (b.collect player point).1,
      ∃ n ∈ point.neighbors, b.is_on_grid n = true ∧ findKey b.grid n = some j ∧
        (b.store j).color = player) ∧
    (∀ n ∈ point.neighbors, b.is_on_grid n = true →
      ∀ i, findKey b.grid n = some i → (b.store i).color = player →
        ∃ j ∈ (b.collect player point).1, b.store j = b.store i) ∧
    ((b.collect player point).1.Pairwise (fun j k => b.store j ≠ b.store k)) ∧
    (∀ j ∈ (b.collect player point).2.1,
      (b.placeReduced player point).store j = (b.store j).remove_liberty point) := by
  refine ⟨collect_opp_sound b player point, ?_, collect_opp_pairwise b player point,
    collect_same_sound b player point, ?_, collect_same_pairwise b player point, ?_⟩
  · intro n hn hon i hf hc
    exact collect_opp_complete b player point n i hn hon hf hc
  · intro n hn hon i hf hc
    exact collect_same_complete b player point n i hn hon hf hc
  · intro j hj
    exact placeReduced_store b player point hfresh hj

/-- Witness for the amended C7: on `exDupBoard` the single collected enemy id
loses the placed point in the reduction phase. -/
theorem place_stone_dedup_structural_witness :
    (exDupBoard.placeReduced Player.black ⟨2, 2⟩).store 1 =
      (exDupBoard.store 1).remove_liberty ⟨2, 2⟩ :=
  (place_stone_dedup_structural exDupBoard Player.black ⟨2, 2⟩
    (by decide)).2.2.2.2.2.2 1 (by decide)

@[simp] theorem GoString.add_liberty_liberties (g : GoString) (p : Point) :
    (g.add_liberty p).liberties = insert p g.liberties := rfl

theorem anyCongr {p q : Point → Bool} :
    ∀ (l : List Point), (∀ x ∈ l, p x = q x) → l.any p = l.any q
  | [], _ => rfl
  | a :: l, h => by
    simp only [List.any_cons, h a (List.mem_cons_self _ _),
      anyCongr l (fun x hx => h x (List.mem_cons_of_mem _ hx))]

theorem sortPoints_toFinset (s : Finset Point) : (sortPoints s).toFinset = s := by
  ext p
  rw [List.mem_toFinset, mem_sortPoints]

theorem removeList_store_sid (sid : Nat) :
    ∀ (l : List Point) (bb : Board),
    (bb.removeList sid l).store sid = bb.store sid
  | [], _ => rfl
  | p :: t, bb => by
    show ((bb.removePoint sid p).removeList sid t).store sid = _
    exact (removeList_store_sid sid t _).trans (removePoint_store_sid bb sid p)

theorem removeList_store (sid : Nat) :
    ∀ (l : List Point) (bb : Board), l.Nodup →
    (∀ p ∈ l, findKey bb.grid p = some sid) →
    ∀ j, j ≠ sid →
    (bb.removeList sid l).store j =
      ⟨(bb.store j).color, (bb.store j).stones,
       (bb.store j).liberties ∪
         (l.filter (fun p => p.neighbors.any
           (fun n => findKey bb.grid n == some j))).toFinset⟩
  | [], bb, _, _, j, _ => by
    simp only [Board.removeList, List.filter_nil, List.toFinset_nil, Finset.union_empty]
  | p :: t, bb, hnd, hmap, j, hj => by
    have hpt : p ∉ t := (List.nodup_cons.mp hnd).1
    have hnd' : t.Nodup := (List.nodup_cons.mp hnd).2
    have hmapp : findKey bb.grid p = some sid := hmap p (List.mem_cons_self _ _)
    have hgrid1 : ∀ q, findKey (bb.removePoint sid p).grid q =
        if q = p then none else findKey bb.grid q := removePoint_grid bb sid p
    have hmap1 : ∀ q ∈ t, findKey (bb.removePoint sid p).grid q = some sid := by
      intro q hq
      have hqp : ¬q = p := fun he => hpt (he ▸ hq)
      rw [hgrid1 q, if_neg hqp]
      exact hmap q (List.mem_cons_of_mem _ hq)
    show ((bb.removePoint sid p).removeList sid t).store j = _
    rw [removeList_store sid t _ hnd' hmap1 j hj]
    have hfilter : t.filter (fun p' => p'.neighbors.any
          (fun n => findKey (bb.removePoint sid p).grid n == some j)) =
        t.filter (fun p' => p'.neighbors.any
          (fun n => findKey bb.grid n == some j)) := by
      apply List.filter_congr
      intro x _
      apply anyCongr
      intro n _
      rw [hgrid1 n]
      by_cases hnp : n = p
      · subst hnp
        rw [if_pos rfl, hmapp]
        have h2 : ((some sid : Option Nat) == some j) = false := by
          rw [beq_eq_false_iff_ne]
          exact fun h => hj (Option.some.inj h).symm
        rw [h2]
        rfl
      · rw [if_neg hnp]
    rw [hfilter, removePoint_store_of_ne bb sid p hj, List.filter_cons]
    by_cases hpx : ∃ n ∈ p.neighbors, findKey bb.grid n = some j
    · have hpredp : (p.neighbors.any (fun n => findKey bb.grid n == some j)) = true := by
        obtain ⟨n, hn, heq⟩ := hpx
        exact List.any_eq_true.mpr ⟨n, hn, beq_iff_eq.mpr heq⟩
      rw [if_pos hpx, hpredp, if_pos rfl, List.toFinset_cons]
      simp only [GoString.add_liberty_color, GoString.add_liberty_stones,
        GoString.add_liberty_liberties, GoString.mk.injEq]
      exact ⟨trivial, trivial, by rw [Finset.insert_union, Finset.union_insert]⟩
    · have hpredp : (p.neighbors.any (fun n => findKey bb.grid n == some j)) = false := by
        rw [← Bool.not_eq_true]
        intro hany
        obtain ⟨n, hn, heq⟩ := List.any_eq_true.mp hany
        exact hpx ⟨n, hn, beq_iff_eq.mp heq⟩
      rw [if_neg hpx, hpredp]
      simp only [Bool.false_eq_true, if_false]

/-- C3: when `place_stone` captures (its final fold removes, via
`Board.captureStep`, every collected enemy group at zero liberties with
`_remove_string`), the removed group's effect is: every point of its stone set
has its grid entry erased and no other grid entry changes; every other group
gains as new liberties exactly those removed points that have a neighbor
mapped to it (gaining each such point once — liberties form a set); neighbors
unmapped or mapped to the removed group itself contribute nothing.  The
hypothesis is the board invariant that the removed group's stones are mapped
to it. -/
theorem remove_string_spec (b : Board) (sid : Nat)
    (hmap : ∀ p ∈ (b.store sid).stones, findKey b.grid p = some sid) :
    (∀ p ∈ (b.store sid).stones, findKey (b.remove_string sid).grid p = none) ∧
    (∀ q, q ∉ (b.store sid).stones →
      findKey (b.remove_string sid).grid q = findKey b.grid q) ∧
    (∀ j, j ≠ sid →
      (b.remove_string sid).store j =
        ⟨(b.store j).color, (b.store j).stones,
         (b.store j).liberties ∪
           (b.store sid).stones.filter
             (fun p => ∃ n ∈ p.neighbors, findKey b.grid n = some j)⟩) ∧
    (∀ (player : Player) (point : Point),
      b.place_stone player point =
        (b.collect player point).2.1.foldl Board.captureStep
          (b.placeReduced player point)) ∧
    (∀ j, Board.captureStep b j =
      if (b.store j).num_liberties = 0 then b.remove_string j else b) := by
  refine ⟨?_, ?_, ?_, fun _ _ => rfl, fun _ => rfl⟩
  · intro p hp
    unfold Board.remove_string
    rw [removeList_grid, if_pos ((mem_sortPoints _ _).mpr hp)]
  · intro q hq
    unfold Board.remove_string
    rw [removeList_grid, if_neg (fun h => hq ((mem_sortPoints _ _).mp h))]
  · intro j hj
    unfold Board.remove_string
    rw [removeList_store sid _ b (nodup_sortPoints _)
      (fun p hp => hmap p ((mem_sortPoints _ _).mp hp)) j hj]
    rw [List.toFinset_filter, sortPoints_toFinset]
    simp only [GoString.mk.injEq, true_and]
    congr 1
    apply Finset.filter_congr
    intro x _
    rw [List.any_eq_true]
    constructor
    · rintro ⟨n, hn, heq⟩
      exact ⟨n, hn, beq_iff_eq.mp heq⟩
    · rintro ⟨n, hn, heq⟩
      exact ⟨n, hn, beq_iff_eq.mpr heq⟩

/-- Witness for C3: capturing the white stone at (1,2) on `exCapBoard` erases
its grid entry, leaves an unrelated entry alone, and restores (1,2) as a
liberty of the black group at (1,3). -/
theorem remove_string_spec_witness :
    findKey (exCapBoard.remove_string 0).grid ⟨1, 2⟩ = none ∧
    findKey (exCapBoard.remove_string 0).grid ⟨2, 1⟩ = findKey exCapBoard.grid ⟨2, 1⟩ ∧
    ((exCapBoard.remove_string 0).store 1).liberties = {⟨2, 3⟩, ⟨1, 2⟩} := by
  have h := remove_string_spec exCapBoard 0 (by decide)
  refine ⟨h.1 ⟨1, 2⟩ (by decide), h.2.1 ⟨2, 1⟩ (by decide), ?_⟩
  have h3 := h.2.2.1 1 (by decide)
  rw [h3]
  decide

end PatchouliGo
